import Mathlib

/-!
Verification of the rten SIMD dispatch core, the chunked map/fold
primitives, the softmax kernel (`rten-vecmath/src/softmax.rs`,
`rten-simd/src/dispatch.rs`) and the text normalizers
(`rten-text/src/normalizers.rs`).

Machine floats are modelled by exact rationals; the external `Exp`
kernel, Unicode tables and the regex engine are abstract parameters.
-/

namespace Rten

/-! ## Dispatcher model (`rten-simd/src/dispatch.rs`) -/

/-- Target architectures distinguished by the `cfg(target_arch = ...)`
attributes in `SimdDispatcher::dispatch`. -/
inductive Arch
| x86_64
| wasm32
| aarch64
| generic
deriving DecidableEq, Repr

/-- Build-time configuration: which target family the code was compiled
for, whether the `avx512` crate feature was enabled, and whether the
wasm build enabled `target_feature = "simd128"`. -/
structure BuildConfig where
  arch : Arch
  avx512_enabled : Bool
  wasm_simd128 : Bool
deriving DecidableEq, Repr

/-- Runtime CPU-feature probe results: `is_avx512_supported()` and
`is_x86_feature_detected!("avx2")` / `is_x86_feature_detected!("fma")`. -/
structure CpuFeatures where
  avx512 : Bool
  avx2 : Bool
  fma : Bool
deriving DecidableEq, Repr

/-- The concrete vector widths `SimdDispatcher::dispatch` can select:
`__m512`, `__m256`, wasm `v128f`, NEON `float32x4_t`, and the scalar
`f32` fallback. -/
inductive SimdWidth
| avx512
| avx2
| wasm128
| neon
| scalar
deriving DecidableEq, Repr

/-- The width-selection ladder of `SimdDispatcher::dispatch`: on x86_64
try AVX-512 (crate feature and runtime probe), then AVX2+FMA (runtime
probe), else scalar; on wasm32 use simd128 when compiled in; on aarch64
always NEON; otherwise the generic scalar fallback. -/
def selectWidth (b : BuildConfig) (c : CpuFeatures) : SimdWidth :=
  match b.arch with
  | Arch.x86_64 =>
      if b.avx512_enabled && c.avx512 then SimdWidth.avx512
      else if c.fma && c.avx2 then SimdWidth.avx2
      else SimdWidth.scalar
  | Arch.wasm32 =>
      if b.wasm_simd128 then SimdWidth.wasm128 else SimdWidth.scalar
  | Arch.aarch64 => SimdWidth.neon
  | Arch.generic => SimdWidth.scalar

/-- `SimdDispatcher::dispatch` invokes the operation's generic `eval`
entry point exactly once, at the selected width, and returns its
output.  An operation value is modelled by its `eval` function from the
chosen width to the output. -/
def dispatchOp {A : Type} (b : BuildConfig) (c : CpuFeatures)
    (evalFn : SimdWidth → A) : A :=
  evalFn (selectWidth b c)

/-! ## Chunked primitives

`simd_map` and `simd_fold` live in `rten_simd::functional`, which is
not part of the sources; they are modelled from the spec, section 4.3.
A lane vector is a `List ℚ` of length `LEN`. -/

/-- Modelled from the spec: `first_n(k)` mask from the Capability Set
(`rten_simd::SimdMask`, not in the sources) — a per-lane predicate that
is true for the first `k` of `n` lanes and false otherwise. -/
def firstN : Nat → Nat → List Bool
  | _, 0 => []
  | 0, n + 1 => false :: firstN 0 n
  | k + 1, n + 1 => true :: firstN k n

/-- Modelled from the spec: `a.blend(b, mask)` from the Capability Set
(`rten_simd::SimdFloat`, not in the sources) — a lane-wise select that
takes the lane of `b` where the mask is true and the lane of `a` where
it is false (the softmax pass blends the after-tail accumulator back
over the pre-tail one using `first_n(r)`, so true lanes come from the
argument). -/
def blendList : List ℚ → List ℚ → List Bool → List ℚ
  | a :: as, b :: bs, m :: ms => (if m then b else a) :: blendList as bs ms
  | _, _, _ => []

/-- Modelled from the spec: `fold_splat(seed, f)` horizontally combines
all lanes of a vector using `f` seeded with `seed`; the rebroadcast of
the scalar result is left to use sites, which work with the scalar. -/
def foldSplat (v : List ℚ) (seed : ℚ) (f : ℚ → ℚ → ℚ) : ℚ :=
  v.foldl f seed

/-- Modelled from the spec, section 4.3: the accumulator loop of
`simd_fold` (`rten_simd::functional`, not in the sources).  Full groups
of `LEN` update the accumulator with the combine function; the final
partial group is padded with the neutral value `pad` (the seed's role).
-/
def simdFoldAux (LEN : Nat) (pad : ℚ) (f : List ℚ → List ℚ → List ℚ)
    (acc : List ℚ) (xs : List ℚ) : List ℚ :=
  if xs = [] then acc
  else if h : 0 < LEN ∧ LEN ≤ xs.length then
    simdFoldAux LEN pad f (f acc (xs.take LEN)) (xs.drop LEN)
  else
    f acc (xs ++ List.replicate (LEN - xs.length) pad)
termination_by xs.length
decreasing_by
  simp only [List.length_drop]
  omega

/-- Modelled from the spec, section 4.3: `simd_fold(src, splat(seed),
f)` — chunked fold with the splatted seed as initial accumulator and as
the neutral filler for the partial final group. -/
def simdFold (LEN : Nat) (xs : List ℚ) (seed : ℚ)
    (f : List ℚ → List ℚ → List ℚ) : List ℚ :=
  simdFoldAux LEN seed f (List.replicate LEN seed) xs

/-- Modelled from the spec, section 4.3: `simd_map`
(`rten_simd::functional`, not in the sources), generalized with an
explicit state `σ` for the mutable variables the Rust closure captures.
Groups are processed in strictly increasing order; full groups are
loaded, transformed and stored whole; the final partial group of length
`r` is loaded padded with the unspecified placeholder `pad`,
transformed, and only its first `r` results are stored. -/
def simdMapSt {σ : Type} (LEN : Nat) (pad : ℚ)
    (f : σ → List ℚ → σ × List ℚ) (s : σ) (xs : List ℚ) : σ × List ℚ :=
  if xs = [] then (s, [])
  else if h : 0 < LEN ∧ LEN ≤ xs.length then
    let p := f s (xs.take LEN)
    let rest := simdMapSt LEN pad f p.1 (xs.drop LEN)
    (rest.1, p.2.take LEN ++ rest.2)
  else
    let p := f s (xs ++ List.replicate (LEN - xs.length) pad)
    (p.1, p.2.take xs.length)
termination_by xs.length
decreasing_by
  simp only [List.length_drop]
  omega

/-- Stateless chunked map, as used by pure element functions. -/
def simdMapPure (LEN : Nat) (pad : ℚ) (f : List ℚ → List ℚ)
    (xs : List ℚ) : List ℚ :=
  (simdMapSt LEN pad (fun (_ : Unit) v => ((), f v)) () xs).2

/-- `SimdMapOp::eval` (`dispatch.rs`, lines 177-188): applies a unary
lane operator to every element of the buffer via `simd_map`; the vector
body applies the lane function `op` to each lane. -/
def simdUnaryMapOp (LEN : Nat) (pad : ℚ) (op : ℚ → ℚ) (xs : List ℚ) :
    List ℚ :=
  simdMapPure LEN pad (fun v => v.map op) xs

/-! ## Softmax kernel (`rten-vecmath/src/softmax.rs`) -/

/-- The exact value of `f32::MIN`, the seed of the softmax max pass. -/
def minF32 : ℚ := -(2 ^ 128 - 2 ^ 104)

/-- The max pass of `Softmax::eval` generalized over the seed:
`simd_fold` with elementwise max combine, then `fold_splat` with the
same seed and scalar max. -/
def chunkedMaxPass (LEN : Nat) (seed : ℚ) (xs : List ℚ) : ℚ :=
  foldSplat (simdFold LEN xs seed (fun a b => List.zipWith max a b)) seed max

/-- Softmax pass 1 (`softmax.rs`, lines 44-50): global maximum with
seed `f32::MIN`. -/
def softmaxMax (LEN : Nat) (xs : List ℚ) : ℚ :=
  chunkedMaxPass LEN minF32 xs

/-- The closure of softmax pass 2 (`softmax.rs`, lines 55-64): compute
`y = exp(x - max)` lane-wise (the `Exp` kernel is the abstract `fexp`),
save the previous accumulator, add `y` to the running accumulator, and
output `y`.  State is `(prev_exp_sum, exp_sum)`. -/
def expStep (fexp : ℚ → ℚ) (m : ℚ) (st : List ℚ × List ℚ)
    (x : List ℚ) : (List ℚ × List ℚ) × List ℚ :=
  let y := x.map fun xi => fexp (xi - m)
  ((st.2, List.zipWith (· + ·) st.2 y), y)

/-- Softmax pass 2: `simd_map` with the exponentiate-and-accumulate
closure, starting from zero accumulators. -/
def expPass (LEN : Nat) (pad : ℚ) (fexp : ℚ → ℚ) (xs : List ℚ) :
    (List ℚ × List ℚ) × List ℚ :=
  simdMapSt LEN pad (expStep fexp (softmaxMax LEN xs))
    (List.replicate LEN 0, List.replicate LEN 0) xs

/-- The corrected accumulator vector of `Softmax::eval` (lines 66-71):
when `dest.len() % LEN` is nonzero, blend the pre-tail accumulator back
into the lanes at and beyond the remainder using `first_n(r)`. -/
def softmaxExpSumVec (LEN : Nat) (pad : ℚ) (fexp : ℚ → ℚ)
    (xs : List ℚ) : List ℚ :=
  let res := expPass LEN pad fexp xs
  let r := res.2.length % LEN
  if r ≠ 0 then blendList res.1.1 res.1.2 (firstN r LEN) else res.1.2

/-- `Softmax::eval` (`softmax.rs`, lines 43-84): three passes — max,
exponentiate-and-accumulate with tail correction, and normalization by
the reciprocal of the horizontally reduced sum. -/
def softmaxEval (LEN : Nat) (pad : ℚ) (fexp : ℚ → ℚ) (xs : List ℚ) :
    List ℚ :=
  let dest := (expPass LEN pad fexp xs).2
  let s := foldSplat (softmaxExpSumVec LEN pad fexp xs) 0 (· + ·)
  let inv := 1 / s
  (simdMapSt LEN pad (fun (u : Unit) x => (u, x.map (· * inv))) () dest).2

/-- The full groups of a chunked walk: the successive `LEN`-element
groups, excluding any partial tail. -/
def fullGroups (LEN : Nat) (xs : List ℚ) : List (List ℚ) :=
  if h : 0 < LEN ∧ LEN ≤ xs.length then
    xs.take LEN :: fullGroups LEN (xs.drop LEN)
  else []
termination_by xs.length
decreasing_by
  simp only [List.length_drop]
  omega

/-- Elementwise sum of a list of `LEN`-lane vectors. -/
def vsum (LEN : Nat) (vs : List (List ℚ)) : List ℚ :=
  vs.foldr (fun v acc => List.zipWith (· + ·) v acc) (List.replicate LEN 0)

/-! ## Text normalizers (`rten-text/src/normalizers.rs`)

Characters are modelled by their code points (`Nat`); a text handled
character-wise is a `List Nat` of code points, a text handled byte-wise
(by `Replace`) is a `List Nat` of bytes.  The external Unicode tables
(`char::to_lowercase`, `decompose_canonical`, `decompose_compatible`,
`compose`, `is_mark_nonspacing`) are abstract function parameters. -/

/-- The UTF-8 encoded length of a code point, as `char::len_utf8`. -/
def utf8Len (c : Nat) : Nat :=
  if c < 0x80 then 1
  else if c < 0x800 then 2
  else if c < 0x10000 then 3
  else 4

/-- The UTF-8 byte length of a character-wise text, as `str::len`. -/
def strLen (t : List Nat) : Nat :=
  (t.map utf8Len).sum

/-- The per-character pipeline of `Bert::normalize`: `CharNormalizer`
seeded with the input character, then `strip_accents` (canonical
decomposition keeping characters that are not nonspacing marks) when
enabled, then `lower_case` when enabled. -/
def bertCharNorm (lc sa : Bool) (dec : Nat → List Nat)
    (mn : Nat → Bool) (low : Nat → List Nat) (c : Nat) : List Nat :=
  let n1 := [c]
  let n2 := if sa then n1.flatMap (fun ch => (dec ch).filter (fun d => !(mn d))) else n1
  if lc then n2.flatMap low else n2

/-- The character loop of `Bert::normalize` (lines 156-173): walk the
characters with their byte offsets, push each normalized character and
its originating offset repeated `len_utf8` times. -/
def bertLoop (lc sa : Bool) (dec : Nat → List Nat) (mn : Nat → Bool)
    (low : Nat → List Nat) (off : Nat) :
    List Nat → List Nat × List Nat
  | [] => ([], [])
  | c :: cs =>
      let outs := bertCharNorm lc sa dec mn low c
      let rest := bertLoop lc sa dec mn low (off + utf8Len c) cs
      (outs ++ rest.1,
       outs.flatMap (fun ch => List.replicate (utf8Len ch) off) ++ rest.2)

/-- `Bert::is_noop` (lines 139-143). -/
def bertIsNoop (lc sa : Bool) : Bool :=
  !lc && !sa

/-- `Bert::normalize` (lines 145-177): the no-op fast path returns the
input with identity byte offsets; otherwise the per-character loop
runs. -/
def bertNormalize (lc sa : Bool) (dec : Nat → List Nat)
    (mn : Nat → Bool) (low : Nat → List Nat) (t : List Nat) :
    List Nat × List Nat :=
  if bertIsNoop lc sa then (t, List.range (strLen t))
  else bertLoop lc sa dec mn low 0 t

/-- `UnicodeBuf::push` on a buffer of (character, char offset) pairs
kept in reverse order so that the last pushed pair is at the head. -/
def ucPush (st : List (Nat × Nat)) (ch off : Nat) : List (Nat × Nat) :=
  (ch, off) :: st

/-- `UnicodeBuf::push_compose` (lines 282-294): pop the previous pair,
compose with it when possible (keeping the previous offset), otherwise
push the previous pair back followed by the new one. -/
def ucPushCompose (comp : Nat → Nat → Option Nat) :
    List (Nat × Nat) → Nat → Nat → List (Nat × Nat)
  | (pch, poff) :: rest, ch, off =>
      match comp pch ch with
      | some c => (c, poff) :: rest
      | none => (ch, off) :: (pch, poff) :: rest
  | [], ch, off => [(ch, off)]

/-- The four Unicode normalization forms of the `Unicode` normalizer. -/
inductive UnicodeForm
| nfc
| nfd
| nfkc
| nfkd
deriving DecidableEq, Repr

/-- The character loop of `Unicode::normalize` (lines 330-351): for
each character and its byte offset, push (or compose-push) the
decomposition prescribed by the form. -/
def unicodeLoop (form : UnicodeForm) (comp : Nat → Nat → Option Nat)
    (decC decK : Nat → List Nat) :
    Nat → List Nat → List (Nat × Nat) → List (Nat × Nat)
  | _, [], st => st
  | off, c :: rest, st =>
      unicodeLoop form comp decC decK (off + utf8Len c) rest
        (match form with
         | UnicodeForm.nfc => ucPushCompose comp st c off
         | UnicodeForm.nfd => (decC c).foldl (fun s d => ucPush s d off) st
         | UnicodeForm.nfkc =>
             (decK c).foldl (fun s d => ucPushCompose comp s d off) st
         | UnicodeForm.nfkd => (decK c).foldl (fun s d => ucPush s d off) st)

/-- `Unicode::normalize` (lines 326-355) followed by
`into_string_with_byte_offsets` (lines 296-310): run the loop, then
expand each character's offset to one entry per UTF-8 byte. -/
def unicodeNormalize (form : UnicodeForm)
    (comp : Nat → Nat → Option Nat) (decC decK : Nat → List Nat)
    (t : List Nat) : List Nat × List Nat :=
  let st := (unicodeLoop form comp decC decK 0 t []).reverse
  (st.map Prod.fst, st.flatMap (fun p => List.replicate (utf8Len p.1) p.2))

/-- Well-formedness of a regex match list as produced by `find_iter`:
matches are in increasing position order, non-overlapping, and within
the text. -/
def matchesValid (n : Nat) : Nat → List (Nat × Nat) → Bool
  | _, [] => true
  | last, (s, e) :: ms =>
      decide (last ≤ s) && decide (s ≤ e) && decide (e ≤ n) &&
        matchesValid n e ms

/-- The match loop of `Replace::normalize` (lines 200-222) over a
byte-wise text: for each match, copy the bytes before it with their own
offsets, then the replacement content with the match start as offset
for every content byte; finally copy the bytes after the last match. -/
def replaceLoop (text content : List Nat) :
    Nat → List (Nat × Nat) → List Nat × List Nat
  | last, [] => (text.drop last, List.range' last (text.length - last))
  | last, (s, e) :: ms =>
      let before := (text.drop last).take (s - last)
      let rest := replaceLoop text content e ms
      (before ++ content ++ rest.1,
       List.range' last (s - last) ++ List.replicate content.length s ++ rest.2)

/-- `Replace::normalize`, parameterized by the match list the regex
engine (the external `fancy_regex` crate) finds in the text. -/
def replaceNormalize (text content : List Nat)
    (ms : List (Nat × Nat)) : List Nat × List Nat :=
  replaceLoop text content 0 ms

/-- An abstract normalizer step, as the boxed `dyn Normalizer` values a
`Sequence` holds: from a text to `none` (a `NormalizeError`) or the
normalized text with its offset mapping. -/
def NormStep : Type :=
  List Nat → Option (List Nat × List Nat)

/-- Option-valued traversal used to model the offset-composition loop
of `Sequence::normalize`; an out-of-range index (a panic in the Rust
code) yields `none`. -/
def omapM (f : Nat → Option Nat) : List Nat → Option (List Nat)
  | [] => some []
  | a :: as =>
      match f a, omapM f as with
      | some b, some bs => some (b :: bs)
      | _, _ => none

/-- The normalizer loop of `Sequence::normalize` (lines 242-249): run
each step on the current text, remap its offsets through the
accumulated mapping (`offsets[*offset]`, which panics — `none` — when
an offset is out of range), and carry the result forward. -/
def seqLoop : List NormStep → List Nat × List Nat →
    Option (List Nat × List Nat)
  | [], st => some st
  | n :: ns, (cur, off) =>
      match n cur with
      | none => none
      | some (nxt, noff) =>
          match omapM (fun j => off.get? j) noff with
          | none => none
          | some comp => seqLoop ns (nxt, comp)

/-- `Sequence::normalize` (lines 237-253): start from the input text
with the identity offset mapping and fold the steps. -/
def sequenceNormalize (ns : List NormStep) (t : List Nat) :
    Option (List Nat × List Nat) :=
  seqLoop ns (t, List.range t.length)

/-- The relational-composition reading of a normalizer sequence from
the claim: apply the head step, recursively normalize the rest, then
compose the two offset mappings; the empty sequence is the identity
with identity offsets. -/
def composedNormalize : List NormStep → List Nat →
    Option (List Nat × List Nat)
  | [], t => some (t, List.range t.length)
  | n :: ns, t =>
      match n t with
      | none => none
      | some (t1, o1) =>
          match composedNormalize ns t1 with
          | none => none
          | some (t2, o2) =>
              match omapM (fun j => o1.get? j) o2 with
              | none => none
              | some o => some (t2, o)

/-- A normalizer step keeps one offset per byte of its output. -/
def stepsLenOk (ns : List NormStep) : Prop :=
  ∀ n ∈ ns, ∀ u v o, n u = some (v, o) → o.length = v.length

/-- The `Replace` normalizer with pattern `"$"` and the given
replacement content: the regex matches the empty string exactly once,
at the end of the input, so the match list is `[(len, len)]`. -/
def replaceEndStep (content : List Nat) : NormStep :=
  fun t => some (replaceNormalize t content [(t.length, t.length)])

/-- The empty `Sequence` normalizer used as a step: it always succeeds
and returns the text unchanged with the identity offset mapping. -/
def idStep : NormStep :=
  fun t => some (t, List.range t.length)

/-! ## Dispatcher theorems -/

/-- C3: the dispatcher selects exactly one vector width per call —
`dispatch` runs the operation's `eval` once at `selectWidth b c` and
returns its output — trying the ladder in fixed order on x86_64
(AVX-512 iff built with the feature and confirmed by the probe, else
AVX2 iff FMA and AVX2 are detected, else scalar), using simd128 on wasm
iff compiled in, NEON on aarch64, and the always-available scalar
fallback otherwise; selection is total, so dispatch never fails. -/
theorem dispatch_selects_one_width (b : BuildConfig) (c : CpuFeatures)
    (A : Type) (evalFn : SimdWidth → A) :
    dispatchOp b c evalFn = evalFn (selectWidth b c)
    ∧ (b.arch = Arch.x86_64 →
        (selectWidth b c = SimdWidth.avx512 ↔
           b.avx512_enabled = true ∧ c.avx512 = true)
        ∧ (selectWidth b c = SimdWidth.avx2 ↔
            ¬(b.avx512_enabled = true ∧ c.avx512 = true) ∧
              c.fma = true ∧ c.avx2 = true)
        ∧ (selectWidth b c = SimdWidth.scalar ↔
            ¬(b.avx512_enabled = true ∧ c.avx512 = true) ∧
              ¬(c.fma = true ∧ c.avx2 = true)))
    ∧ (b.arch = Arch.wasm32 →
        selectWidth b c =
          if b.wasm_simd128 then SimdWidth.wasm128 else SimdWidth.scalar)
    ∧ (b.arch = Arch.aarch64 → selectWidth b c = SimdWidth.neon)
    ∧ (b.arch = Arch.generic → selectWidth b c = SimdWidth.scalar) := by
  refine ⟨rfl, ?_, ?_, ?_, ?_⟩ <;>
    rcases b with ⟨arch, e5, ws⟩ <;> rcases c with ⟨f5, f2, ff⟩ <;>
    cases arch <;> cases e5 <;> cases ws <;> cases f5 <;> cases f2 <;>
    cases ff <;> decide

/-- Witness for C3 at a concrete build configuration and CPU: x86_64
built with the avx512 feature, on a CPU whose probe denies AVX-512 but
confirms AVX2 and FMA. -/
theorem dispatch_selects_one_width_witness :
    dispatchOp ⟨Arch.x86_64, true, false⟩ ⟨false, true, true⟩ (fun w => w) =
      (fun w : SimdWidth => w)
        (selectWidth ⟨Arch.x86_64, true, false⟩ ⟨false, true, true⟩)
    ∧ ((⟨Arch.x86_64, true, false⟩ : BuildConfig).arch = Arch.x86_64 →
        (selectWidth ⟨Arch.x86_64, true, false⟩ ⟨false, true, true⟩ =
            SimdWidth.avx512 ↔
           (true : Bool) = true ∧ (false : Bool) = true)
        ∧ (selectWidth ⟨Arch.x86_64, true, false⟩ ⟨false, true, true⟩ =
            SimdWidth.avx2 ↔
            ¬((true : Bool) = true ∧ (false : Bool) = true) ∧
              (true : Bool) = true ∧ (true : Bool) = true)
        ∧ (selectWidth ⟨Arch.x86_64, true, false⟩ ⟨false, true, true⟩ =
            SimdWidth.scalar ↔
            ¬((true : Bool) = true ∧ (false : Bool) = true) ∧
              ¬((true : Bool) = true ∧ (true : Bool) = true)))
    ∧ ((⟨Arch.x86_64, true, false⟩ : BuildConfig).arch = Arch.wasm32 →
        selectWidth ⟨Arch.x86_64, true, false⟩ ⟨false, true, true⟩ =
          if (false : Bool) then SimdWidth.wasm128 else SimdWidth.scalar)
    ∧ ((⟨Arch.x86_64, true, false⟩ : BuildConfig).arch = Arch.aarch64 →
        selectWidth ⟨Arch.x86_64, true, false⟩ ⟨false, true, true⟩ =
          SimdWidth.neon)
    ∧ ((⟨Arch.x86_64, true, false⟩ : BuildConfig).arch = Arch.generic →
        selectWidth ⟨Arch.x86_64, true, false⟩ ⟨false, true, true⟩ =
          SimdWidth.scalar) :=
  dispatch_selects_one_width ⟨Arch.x86_64, true, false⟩ ⟨false, true, true⟩
    SimdWidth (fun w => w)

/-! ## Chunked map identity (C8) -/

theorem simdMapSt_id_snd :
    ∀ (n : Nat) (xs : List ℚ), xs.length ≤ n → ∀ (LEN : Nat) (pad : ℚ),
      (simdMapSt LEN pad (fun (_ : Unit) v => ((), v)) () xs).2 = xs := by
  intro n
  induction n with
  | zero =>
      intro xs hxs LEN pad
      have hx : xs = [] := List.eq_nil_of_length_eq_zero (Nat.le_zero.mp hxs)
      subst hx
      rw [simdMapSt]
      simp
  | succ n ih =>
      intro xs hxs LEN pad
      rw [simdMapSt]
      by_cases hnil : xs = []
      · simp [hnil]
      · rw [if_neg hnil]
        by_cases h : 0 < LEN ∧ LEN ≤ xs.length
        · have hlen : (xs.drop LEN).length ≤ n := by
            simp only [List.length_drop]
            have hpos : 0 < xs.length := List.length_pos.mpr hnil
            omega
          rw [dif_pos h]
          simp only [ih (xs.drop LEN) hlen LEN pad]
          rw [List.take_take, Nat.min_self, List.take_append_drop]
        · rw [dif_neg h]
          simp only
          exact List.take_left xs _

/-- C8: the chunked map primitive applied with the identity element
function (`SimdMapOp::eval` of the identity unary operator) returns the
input unchanged, for every lane width, every placeholder value for the
padding of a partial final group, and every input length. -/
theorem chunked_map_identity (LEN : Nat) (pad : ℚ) (xs : List ℚ) :
    simdUnaryMapOp LEN pad (fun q => q) xs = xs := by
  rw [simdUnaryMapOp, simdMapPure]
  simp only [List.map_id']
  exact simdMapSt_id_snd xs.length xs (Nat.le_refl _) LEN pad

/-! ## Chunked max fold (C4) -/

theorem foldl_max_seed_le (l : List ℚ) : ∀ s : ℚ, s ≤ l.foldl max s := by
  induction l with
  | nil => intro s; exact le_refl s
  | cons h t ih =>
      intro s
      exact le_trans (le_max_left s h) (ih (max s h))

theorem foldl_max_elem_le (l : List ℚ) :
    ∀ s : ℚ, ∀ x ∈ l, x ≤ l.foldl max s := by
  induction l with
  | nil => intro s x hx; exact absurd hx (List.not_mem_nil x)
  | cons h t ih =>
      intro s x hx
      rcases List.mem_cons.mp hx with hx | hx
      · subst hx
        exact le_trans (le_max_right s x) (foldl_max_seed_le t (max s x))
      · exact ih (max s h) x hx

theorem foldl_max_mem (l : List ℚ) :
    ∀ s : ℚ, l.foldl max s = s ∨ l.foldl max s ∈ l := by
  induction l with
  | nil => intro s; exact Or.inl rfl
  | cons h t ih =>
      intro s
      rcases ih (max s h) with hm | hm
      · rcases max_choice s h with hc | hc
        · exact Or.inl (by rw [List.foldl_cons, hm, hc])
        · refine Or.inr ?_
          rw [List.foldl_cons, hm, hc]
          exact List.mem_cons_self h t
      · exact Or.inr (List.mem_cons_of_mem h hm)

theorem foldl_max_shift (l : List ℚ) :
    ∀ u v : ℚ, l.foldl max (max u v) = max u (l.foldl max v) := by
  induction l with
  | nil => intro u v; rfl
  | cons h t ih =>
      intro u v
      rw [List.foldl_cons, max_assoc, ih u (max v h), List.foldl_cons]

theorem foldl_max_replicate (k : Nat) :
    ∀ s c : ℚ, c ≤ s → (List.replicate k c).foldl max s = s := by
  induction k with
  | zero => intro s c _; rfl
  | succ k ih =>
      intro s c hc
      rw [List.replicate_succ, List.foldl_cons, max_eq_left hc, ih s c hc]

theorem foldl_max_zipWith (a : List ℚ) :
    ∀ (b : List ℚ) (s : ℚ), a.length = b.length →
      (List.zipWith max a b).foldl max s =
        max (a.foldl max s) (b.foldl max s) := by
  induction a with
  | nil =>
      intro b s hlen
      have hb : b = [] := List.eq_nil_of_length_eq_zero hlen.symm
      subst hb
      exact (max_self s).symm
  | cons x as ih =>
      intro b s hlen
      cases b with
      | nil => exact absurd hlen (by simp)
      | cons y bs =>
          have hlen' : as.length = bs.length := by
            simpa using hlen
          rw [List.zipWith_cons_cons, List.foldl_cons,
            ih bs (max s (max x y)) hlen']
          have e1 : max s (max x y) = max y (max s x) := by
            rw [max_comm x y, ← max_assoc, max_comm s y, max_assoc]
          have e2 : max s (max x y) = max x (max s y) := by
            rw [← max_assoc, max_comm s x, max_assoc]
          rw [show (max s (max x y)) = max y (max s x) from e1] at *
          rw [foldl_max_shift as y (max s x)]
          rw [show (max y (max s x)) = max x (max s y) from e1 ▸ e2]
          rw [foldl_max_shift bs x (max s y), List.foldl_cons, List.foldl_cons]
          have hy : y ≤ bs.foldl max (max s y) :=
            le_trans (le_max_right s y) (foldl_max_seed_le bs (max s y))
          have hx : x ≤ as.foldl max (max s x) :=
            le_trans (le_max_right s x) (foldl_max_seed_le as (max s x))
          apply le_antisymm
          · exact max_le
              (max_le (le_trans hy (le_max_right _ _)) (le_max_left _ _))
              (max_le (le_trans hx (le_max_left _ _)) (le_max_right _ _))
          · exact max_le
              (le_trans (le_max_right y _) (le_max_left _ _))
              (le_trans (le_max_right x _) (le_max_right _ _))

theorem simdFoldAux_max_foldl (LEN : Nat) (c : ℚ) :
    ∀ (n : Nat) (xs : List ℚ), xs.length ≤ n →
      ∀ acc : List ℚ, acc.length = LEN → 0 < LEN →
        (simdFoldAux LEN c (fun a b => List.zipWith max a b) acc
            xs).foldl max c =
          xs.foldl max (acc.foldl max c) := by
  intro n
  induction n with
  | zero =>
      intro xs hxs acc hacc hL
      have hx : xs = [] := List.eq_nil_of_length_eq_zero (Nat.le_zero.mp hxs)
      subst hx
      rw [simdFoldAux]
      simp
  | succ n ih =>
      intro xs hxs acc hacc hL
      rw [simdFoldAux]
      by_cases hnil : xs = []
      · simp [hnil]
      · rw [if_neg hnil]
        by_cases h : 0 < LEN ∧ LEN ≤ xs.length
        · rw [dif_pos h]
          have hglen : (xs.take LEN).length = LEN := by
            rw [List.length_take]
            omega
          have hzlen : (List.zipWith max acc (xs.take LEN)).length = LEN := by
            rw [List.length_zipWith, hacc, hglen, Nat.min_self]
          have hdlen : (xs.drop LEN).length ≤ n := by
            have hpos : 0 < xs.length := List.length_pos.mpr hnil
            simp only [List.length_drop]
            omega
          rw [ih (xs.drop LEN) hdlen _ hzlen hL]
          rw [foldl_max_zipWith acc (xs.take LEN) c (by rw [hacc, hglen])]
          conv_rhs => rw [← List.take_append_drop LEN xs]
          rw [List.foldl_append]
          congr 1
          have hca : c ≤ acc.foldl max c := foldl_max_seed_le acc c
          rw [← max_eq_left hca, foldl_max_shift (xs.take LEN) _ c,
            max_eq_left hca]
        · rw [dif_neg h]
          have hlt : xs.length < LEN := by
            rcases Nat.lt_or_ge xs.length LEN with hlt | hge
            · exact hlt
            · exact absurd ⟨hL, hge⟩ h
          have hplen : (xs ++ List.replicate (LEN - xs.length) c).length =
              LEN := by
            simp only [List.length_append, List.length_replicate]
            omega
          rw [foldl_max_zipWith acc _ c (by rw [hacc, hplen]),
            List.foldl_append,
            foldl_max_replicate _ _ c (foldl_max_seed_le xs c)]
          have hca : c ≤ acc.foldl max c := foldl_max_seed_le acc c
          rw [← max_eq_left hca, foldl_max_shift xs _ c, max_eq_left hca]

theorem chunkedMaxPass_eq_foldl (LEN : Nat) (seed : ℚ) (xs : List ℚ)
    (hL : 0 < LEN) :
    chunkedMaxPass LEN seed xs = xs.foldl max seed := by
  rw [chunkedMaxPass, simdFold, foldSplat,
    simdFoldAux_max_foldl LEN seed xs.length xs (Nat.le_refl _)
      (List.replicate LEN seed) (List.length_replicate LEN seed) hL,
    foldl_max_replicate LEN seed seed (le_refl seed)]

/-- C4: the chunked fold with elementwise max combine and seed
`f32::MIN`, horizontally reduced by `fold_splat` with max (the softmax
max pass), returns the seed unchanged on the empty input, and on any
nonempty input of finite-float values (all at least `f32::MIN`) returns
the true maximum: an element of the input that bounds every element. -/
theorem chunked_fold_max_correct (LEN : Nat) (xs : List ℚ)
    (hL : 0 < LEN) :
    (xs = [] → chunkedMaxPass LEN minF32 xs = minF32)
    ∧ (xs ≠ [] → (∀ x ∈ xs, minF32 ≤ x) →
        chunkedMaxPass LEN minF32 xs ∈ xs ∧
          ∀ x ∈ xs, x ≤ chunkedMaxPass LEN minF32 xs) := by
  rw [chunkedMaxPass_eq_foldl LEN minF32 xs hL]
  constructor
  · intro hx
    subst hx
    rfl
  · intro hne hbound
    refine ⟨?_, fun x hx => foldl_max_elem_le xs minF32 x hx⟩
    rcases foldl_max_mem xs minF32 with hm | hm
    · cases xs with
      | nil => exact absurd rfl hne
      | cons x0 rest =>
          have h1 : x0 ≤ (x0 :: rest).foldl max minF32 :=
            foldl_max_elem_le _ minF32 x0 (List.mem_cons_self x0 rest)
          have h2 : minF32 ≤ x0 := hbound x0 (List.mem_cons_self x0 rest)
          have hx0 : (x0 :: rest).foldl max minF32 = x0 := by
            rw [hm] at h1 ⊢
            exact le_antisymm h2 h1
          rw [hx0]
          exact List.mem_cons_self x0 rest
    · exact hm

/-- Witness for C4 at lane width 4 and the concrete input
`[1, -2, 3]`. -/
theorem chunked_fold_max_correct_witness :
    (([1, -2, 3] : List ℚ) = [] → chunkedMaxPass 4 minF32 [1, -2, 3] = minF32)
    ∧ (([1, -2, 3] : List ℚ) ≠ [] →
        (∀ x ∈ ([1, -2, 3] : List ℚ), minF32 ≤ x) →
        chunkedMaxPass 4 minF32 [1, -2, 3] ∈ ([1, -2, 3] : List ℚ) ∧
          ∀ x ∈ ([1, -2, 3] : List ℚ),
            x ≤ chunkedMaxPass 4 minF32 [1, -2, 3]) :=
  chunked_fold_max_correct 4 [1, -2, 3] (by decide)

/-! ## Softmax tail-group correction (C2) -/

theorem sum_zipWith_add (a : List ℚ) :
    ∀ b : List ℚ, a.length = b.length →
      (List.zipWith (· + ·) a b).sum = a.sum + b.sum := by
  induction a with
  | nil =>
      intro b hlen
      have hb : b = [] := List.eq_nil_of_length_eq_zero hlen.symm
      subst hb
      simp
  | cons x as ih =>
      intro b hlen
      cases b with
      | nil => exact absurd hlen (by simp)
      | cons y bs =>
          have hlen' : as.length = bs.length := by simpa using hlen
          simp only [List.zipWith_cons_cons, List.sum_cons, ih bs hlen']
          ring

theorem zipWith_add_assoc (a : List ℚ) :
    ∀ b c : List ℚ,
      List.zipWith (· + ·) (List.zipWith (· + ·) a b) c =
        List.zipWith (· + ·) a (List.zipWith (· + ·) b c) := by
  induction a with
  | nil => intro b c; simp
  | cons x as ih =>
      intro b c
      cases b with
      | nil => simp
      | cons y bs =>
          cases c with
          | nil => simp
          | cons z cs =>
              simp only [List.zipWith_cons_cons, ih bs cs, add_assoc]

theorem zipWith_add_zero_left (v : List ℚ) :
    ∀ n : Nat, v.length = n →
      List.zipWith (· + ·) (List.replicate n 0) v = v := by
  induction v with
  | nil => intro n _; simp
  | cons x vs ih =>
      intro n hn
      cases n with
      | zero => exact absurd hn (by simp)
      | succ n =>
          have hn' : vs.length = n := by simpa using hn
          rw [List.replicate_succ, List.zipWith_cons_cons, zero_add, ih n hn']

theorem zipWith_add_zero_right (v : List ℚ) :
    ∀ n : Nat, v.length = n →
      List.zipWith (· + ·) v (List.replicate n 0) = v := by
  induction v with
  | nil => intro n _; simp
  | cons x vs ih =>
      intro n hn
      cases n with
      | zero => exact absurd hn (by simp)
      | succ n =>
          have hn' : vs.length = n := by simpa using hn
          rw [List.replicate_succ, List.zipWith_cons_cons, add_zero, ih n hn']

theorem vsum_nil (LEN : Nat) : vsum LEN [] = List.replicate LEN 0 :=
  rfl

theorem vsum_cons (LEN : Nat) (v : List ℚ) (vs : List (List ℚ)) :
    vsum LEN (v :: vs) = List.zipWith (· + ·) v (vsum LEN vs) :=
  rfl

theorem vsum_length (LEN : Nat) :
    ∀ vs : List (List ℚ), (∀ v ∈ vs, v.length = LEN) →
      (vsum LEN vs).length = LEN := by
  intro vs
  induction vs with
  | nil => intro _; simp [vsum_nil]
  | cons v vs ih =>
      intro hall
      rw [vsum_cons, List.length_zipWith,
        hall v (List.mem_cons_self v vs),
        ih (fun w hw => hall w (List.mem_cons_of_mem v hw)), Nat.min_self]

theorem fullGroups_cons (LEN : Nat) (xs : List ℚ)
    (h : 0 < LEN ∧ LEN ≤ xs.length) :
    fullGroups LEN xs = xs.take LEN :: fullGroups LEN (xs.drop LEN) := by
  rw [fullGroups, dif_pos h]

theorem fullGroups_eq_nil (LEN : Nat) (xs : List ℚ)
    (h : ¬(0 < LEN ∧ LEN ≤ xs.length)) : fullGroups LEN xs = [] := by
  rw [fullGroups, dif_neg h]

theorem fullGroups_forall_length (LEN : Nat) :
    ∀ (n : Nat) (xs : List ℚ), xs.length ≤ n →
      ∀ g ∈ fullGroups LEN xs, g.length = LEN := by
  intro n
  induction n with
  | zero =>
      intro xs hxs g hg
      have hx : xs = [] := List.eq_nil_of_length_eq_zero (Nat.le_zero.mp hxs)
      subst hx
      rw [fullGroups_eq_nil LEN [] (by rintro ⟨h1, h2⟩; simp at h2; omega)] at hg
      exact absurd hg (List.not_mem_nil g)
  | succ n ih =>
      intro xs hxs g hg
      by_cases h : 0 < LEN ∧ LEN ≤ xs.length
      · rw [fullGroups_cons LEN xs h] at hg
        rcases List.mem_cons.mp hg with hg | hg
        · subst hg
          rw [List.length_take]
          omega
        · refine ih (xs.drop LEN) ?_ g hg
          simp only [List.length_drop]
          omega
      · rw [fullGroups_eq_nil LEN xs h] at hg
        exact absurd hg (List.not_mem_nil g)

theorem blendList_firstN (a : List ℚ) :
    ∀ (b : List ℚ) (k : Nat), a.length = b.length →
      blendList a b (firstN k a.length) = b.take k ++ a.drop k := by
  induction a with
  | nil =>
      intro b k hlen
      have hb : b = [] := List.eq_nil_of_length_eq_zero hlen.symm
      subst hb
      simp [firstN, blendList]
  | cons x as ih =>
      intro b k hlen
      cases b with
      | nil => exact absurd hlen (by simp)
      | cons y bs =>
          have hlen' : as.length = bs.length := by simpa using hlen
          cases k with
          | zero =>
              simp only [List.length_cons, firstN, blendList, if_neg
                Bool.false_ne_true, List.take_zero, List.drop_zero,
                List.nil_append]
              rw [ih bs 0 hlen']
              simp
          | succ k =>
              simp only [List.length_cons, firstN, blendList,
                List.take_succ_cons, List.drop_succ_cons, List.cons_append]
              rw [ih bs k hlen']
              simp

theorem foldl_add_eq_sum (l : List ℚ) :
    ∀ s : ℚ, l.foldl (· + ·) s = s + l.sum := by
  induction l with
  | nil => intro s; simp
  | cons x xs ih =>
      intro s
      rw [List.foldl_cons, ih (s + x), List.sum_cons]
      ring

theorem expPass_core (LEN : Nat) (pad : ℚ) (fexp : ℚ → ℚ) (m : ℚ) :
    ∀ (n : Nat) (xs : List ℚ), xs.length ≤ n →
      0 < xs.length % LEN → xs.length % LEN < LEN →
      ∀ p e : List ℚ, e.length = LEN →
        (simdMapSt LEN pad (expStep fexp m) (p, e) xs).2 =
            xs.map (fun x => fexp (x - m))
        ∧ (simdMapSt LEN pad (expStep fexp m) (p, e) xs).1.2.length = LEN
        ∧ (simdMapSt LEN pad (expStep fexp m) (p, e) xs).1.1 =
            List.zipWith (· + ·) e
              (vsum LEN ((fullGroups LEN xs).map
                (fun g => g.map fun x => fexp (x - m))))
        ∧ ((simdMapSt LEN pad (expStep fexp m) (p, e) xs).1.2.take
              (xs.length % LEN)).sum +
            ((simdMapSt LEN pad (expStep fexp m) (p, e) xs).1.1.drop
              (xs.length % LEN)).sum
            = e.sum + (xs.map (fun x => fexp (x - m))).sum := by
  intro n
  induction n with
  | zero =>
      intro xs hxs hr _ p e _
      have hx : xs = [] := List.eq_nil_of_length_eq_zero (Nat.le_zero.mp hxs)
      subst hx
      simp at hr
  | succ n ih =>
      intro xs hxs hr hrL p e he
      have hL : 0 < LEN := by
        rcases Nat.eq_zero_or_pos LEN with h0 | h0
        · subst h0
          rw [Nat.mod_zero] at hrL
          omega
        · exact h0
      have hnil : xs ≠ [] := by
        intro hx
        subst hx
        simp at hr
      by_cases h : 0 < LEN ∧ LEN ≤ xs.length
      · -- a full group followed by the rest
        have hglen : (xs.take LEN).length = LEN := by
          rw [List.length_take]
          omega
        have hylen : ((xs.take LEN).map (fun x => fexp (x - m))).length =
            LEN := by
          rw [List.length_map, hglen]
        have he1 : (List.zipWith (· + ·) e
            ((xs.take LEN).map fun x => fexp (x - m))).length = LEN := by
          rw [List.length_zipWith, he, hylen, Nat.min_self]
        have hmod : (xs.drop LEN).length % LEN = xs.length % LEN := by
          simp only [List.length_drop]
          conv_rhs => rw [← Nat.sub_add_cancel h.2]
          rw [Nat.add_mod_right]
        have hdlen : (xs.drop LEN).length ≤ n := by
          have hpos : 0 < xs.length := List.length_pos.mpr hnil
          simp only [List.length_drop]
          omega
        obtain ⟨ih1, ih2, ih3, ih4⟩ :=
          ih (xs.drop LEN) hdlen (by rw [hmod]; exact hr)
            (by rw [hmod]; exact hrL) e
            (List.zipWith (· + ·) e ((xs.take LEN).map fun x => fexp (x - m)))
            he1
        rw [simdMapSt, if_neg hnil, dif_pos h]
        simp only [expStep]
        refine ⟨?_, ?_, ?_, ?_⟩
        · rw [ih1]
          conv_rhs => rw [← List.take_append_drop LEN xs]
          rw [List.map_append]
          congr 1
          exact List.take_of_length_le (le_of_eq hylen)
        · exact ih2
        · rw [ih3, fullGroups_cons LEN xs h, List.map_cons, vsum_cons,
            zipWith_add_assoc]
        · rw [hmod] at ih4
          rw [ih4, sum_zipWith_add e _ (by rw [he, hylen])]
          conv_rhs => rw [← List.take_append_drop LEN xs]
          rw [List.map_append, List.sum_append]
          ring
      · -- the final partial group
        have hlt : xs.length < LEN := by
          rcases Nat.lt_or_ge xs.length LEN with hlt | hge
          · exact hlt
          · exact absurd ⟨hL, hge⟩ h
        have hmod : xs.length % LEN = xs.length := Nat.mod_eq_of_lt hlt
        have hplen : (xs ++ List.replicate (LEN - xs.length) pad).length =
            LEN := by
          simp only [List.length_append, List.length_replicate]
          omega
        have hylen : ((xs ++ List.replicate (LEN - xs.length) pad).map
            (fun x => fexp (x - m))).length = LEN := by
          rw [List.length_map, hplen]
        have htky : ((xs ++ List.replicate (LEN - xs.length) pad).map
            (fun x => fexp (x - m))).take xs.length =
              xs.map (fun x => fexp (x - m)) := by
          rw [← List.map_take, List.take_left]
        rw [simdMapSt, if_neg hnil, dif_neg h]
        simp only [expStep]
        refine ⟨htky, ?_, ?_, ?_⟩
        · rw [List.length_zipWith, he, hylen, Nat.min_self]
        · rw [fullGroups_eq_nil LEN xs h, List.map_nil, vsum_nil,
            zipWith_add_zero_right e LEN he]
        · rw [hmod, List.take_zipWith, htky]
          have hetk : (e.take xs.length).length =
              (xs.map fun x => fexp (x - m)).length := by
            rw [List.length_take, List.length_map, he]
            omega
          rw [sum_zipWith_add _ _ hetk]
          have hsplit : (e.take xs.length).sum + (e.drop xs.length).sum =
              e.sum := by
            rw [← List.sum_append, List.take_append_drop]
          ring_nf
          ring_nf at hsplit
          linarith [hsplit]

/-- C2: in the softmax exponentiate-and-accumulate pass, when the input
length has remainder `r` with `0 < r < LEN`, the corrected accumulator
(pre-tail accumulator blended back via `first_n(r)`) agrees, on every
lane at or beyond `r`, with the per-lane exponential sum over the full
groups only (the value held before the tail group was processed), and
its horizontal `fold_splat` sum equals the sum of `exp(x[i] - m)` over
exactly the `n` real input elements. -/
theorem softmax_tail_blend_correct (LEN : Nat) (pad : ℚ) (fexp : ℚ → ℚ)
    (xs : List ℚ) (hr : 0 < xs.length % LEN)
    (hrL : xs.length % LEN < LEN) :
    (∀ i, xs.length % LEN ≤ i →
       (softmaxExpSumVec LEN pad fexp xs).get? i =
         (vsum LEN ((fullGroups LEN xs).map
           (fun g => g.map fun x => fexp (x - softmaxMax LEN xs)))).get? i)
    ∧ foldSplat (softmaxExpSumVec LEN pad fexp xs) 0 (· + ·) =
        (xs.map fun x => fexp (x - softmaxMax LEN xs)).sum := by
  obtain ⟨h1, h2, h3, h4⟩ :=
    expPass_core LEN pad fexp (softmaxMax LEN xs) xs.length xs
      (Nat.le_refl _) hr hrL (List.replicate LEN 0) (List.replicate LEN 0)
      (List.length_replicate LEN 0)
  have hVlen : (vsum LEN ((fullGroups LEN xs).map
      (fun g => g.map fun x => fexp (x - softmaxMax LEN xs)))).length =
        LEN := by
    refine vsum_length LEN _ ?_
    intro v hv
    rcases List.mem_map.mp hv with ⟨g, hg, hgv⟩
    rw [← hgv, List.length_map]
    exact fullGroups_forall_length LEN xs.length xs (Nat.le_refl _) g hg
  have hprev : (expPass LEN pad fexp xs).1.1 =
      vsum LEN ((fullGroups LEN xs).map
        (fun g => g.map fun x => fexp (x - softmaxMax LEN xs))) := by
    rw [expPass, h3, zipWith_add_zero_left _ LEN hVlen]
  have hdest : (expPass LEN pad fexp xs).2.length = xs.length := by
    rw [expPass, h1, List.length_map]
  have hblend : softmaxExpSumVec LEN pad fexp xs =
      (expPass LEN pad fexp xs).1.2.take (xs.length % LEN) ++
        (expPass LEN pad fexp xs).1.1.drop (xs.length % LEN) := by
    rw [softmaxExpSumVec]
    simp only [hdest]
    rw [if_pos (Nat.pos_iff_ne_zero.mp hr)]
    have hplen : (expPass LEN pad fexp xs).1.1.length = LEN := by
      rw [hprev]
      exact hVlen
    have helen : (expPass LEN pad fexp xs).1.1.length =
        (expPass LEN pad fexp xs).1.2.length := by
      rw [hplen, expPass, h2]
    have hbf := blendList_firstN (expPass LEN pad fexp xs).1.1
      (expPass LEN pad fexp xs).1.2 (xs.length % LEN) helen
    rw [hplen] at hbf
    exact hbf
  constructor
  · intro i hi
    rw [hblend]
    have htklen : ((expPass LEN pad fexp xs).1.2.take
        (xs.length % LEN)).length = xs.length % LEN := by
      rw [List.length_take, expPass, h2]
      omega
    rw [List.get?_append_right (by rw [htklen]; exact hi), htklen,
      List.get?_drop]
    have hi' : xs.length % LEN + (i - xs.length % LEN) = i := by omega
    rw [hi', ← hprev, expPass]
  · rw [hblend, foldSplat, foldl_add_eq_sum, zero_add, List.sum_append,
      expPass, h4, List.sum_replicate, smul_zero, zero_add]

/-- Witness for C2 at lane width 4, padding placeholder 55, the square
function for `exp`, and the length-6 input `[1, 2, 3, 4, 5, 6]` (so
the remainder is 2). -/
theorem softmax_tail_blend_correct_witness :
    0 < ([1, 2, 3, 4, 5, 6] : List ℚ).length % 4
    ∧ ([1, 2, 3, 4, 5, 6] : List ℚ).length % 4 < 4
    ∧ ((∀ i, ([1, 2, 3, 4, 5, 6] : List ℚ).length % 4 ≤ i →
         (softmaxExpSumVec 4 55 (fun x => x * x) [1, 2, 3, 4, 5, 6]).get? i =
           (vsum 4 ((fullGroups 4 [1, 2, 3, 4, 5, 6]).map
             (fun g => g.map fun x =>
               (x - softmaxMax 4 [1, 2, 3, 4, 5, 6]) *
                 (x - softmaxMax 4 [1, 2, 3, 4, 5, 6])))).get? i)
       ∧ foldSplat (softmaxExpSumVec 4 55 (fun x => x * x)
             [1, 2, 3, 4, 5, 6]) 0 (· + ·) =
           (([1, 2, 3, 4, 5, 6] : List ℚ).map fun x =>
             (x - softmaxMax 4 [1, 2, 3, 4, 5, 6]) *
               (x - softmaxMax 4 [1, 2, 3, 4, 5, 6])).sum) :=
  ⟨by decide, by decide,
    softmax_tail_blend_correct 4 55 (fun x => x * x) [1, 2, 3, 4, 5, 6]
      (by decide) (by decide)⟩

/-! ## Softmax on the empty input (C6) -/

theorem simdMapSt_nil {σ : Type} (LEN : Nat) (pad : ℚ)
    (f : σ → List ℚ → σ × List ℚ) (s : σ) :
    simdMapSt LEN pad f s [] = (s, []) := by
  rw [simdMapSt]
  simp

/-- C6: `Softmax::eval` on an input of length 0 yields an output of
length 0 — no passes touch any element and the call completes (the
model is a total function) even though the internal exponential sum is
zero. -/
theorem softmax_empty_input (LEN : Nat) (pad : ℚ) (fexp : ℚ → ℚ) :
    softmaxEval LEN pad fexp [] = [] := by
  rw [softmaxEval, expPass]
  simp only [simdMapSt_nil]

/-! ## Bert normalizer (C10, part of C7) -/

theorem utf8Len_pos (c : Nat) : 0 < utf8Len c := by
  rw [utf8Len]
  split
  · omega
  · split
    · omega
    · split <;> omega

theorem strLen_nil : strLen [] = 0 :=
  rfl

theorem strLen_cons (c : Nat) (cs : List Nat) :
    strLen (c :: cs) = utf8Len c + strLen cs := by
  simp [strLen]

theorem strLen_append (a b : List Nat) :
    strLen (a ++ b) = strLen a + strLen b := by
  simp [strLen]

theorem flatMap_replicate_length (off : Nat) (outs : List Nat) :
    (outs.flatMap fun ch => List.replicate (utf8Len ch) off).length =
      strLen outs := by
  induction outs with
  | nil => rfl
  | cons c cs ih =>
      rw [List.flatMap_cons, List.length_append, List.length_replicate, ih,
        strLen_cons]

theorem flatMap_replicate_mem (off : Nat) (outs : List Nat) :
    ∀ o ∈ outs.flatMap fun ch => List.replicate (utf8Len ch) off,
      o = off := by
  intro o ho
  rcases List.mem_flatMap.mp ho with ⟨ch, _, hrep⟩
  exact (List.mem_replicate.mp hrep).2

theorem bertLoop_spec (lc sa : Bool) (dec : Nat → List Nat)
    (mn : Nat → Bool) (low : Nat → List Nat) :
    ∀ (cs : List Nat) (off : Nat),
      (bertLoop lc sa dec mn low off cs).2.length =
        strLen (bertLoop lc sa dec mn low off cs).1
      ∧ ∀ o ∈ (bertLoop lc sa dec mn low off cs).2,
          o < off + strLen cs := by
  intro cs
  induction cs with
  | nil =>
      intro off
      exact ⟨rfl, by intro o ho; exact absurd ho (List.not_mem_nil o)⟩
  | cons c cs ih =>
      intro off
      obtain ⟨ihlen, ihmem⟩ := ih (off + utf8Len c)
      constructor
      · rw [bertLoop]
        simp only [List.length_append]
        rw [flatMap_replicate_length, ihlen, strLen_append]
      · intro o ho
        rw [bertLoop] at ho
        simp only [List.mem_append] at ho
        rcases ho with ho | ho
        · have : o = off := flatMap_replicate_mem off _ o ho
          subst this
          have := utf8Len_pos c
          rw [strLen_cons]
          omega
        · have := ihmem o ho
          rw [strLen_cons]
          omega

theorem bertNormalize_spec (lc sa : Bool) (dec : Nat → List Nat)
    (mn : Nat → Bool) (low : Nat → List Nat) (t : List Nat) :
    (bertNormalize lc sa dec mn low t).2.length =
      strLen (bertNormalize lc sa dec mn low t).1
    ∧ ∀ o ∈ (bertNormalize lc sa dec mn low t).2, o < strLen t := by
  rw [bertNormalize]
  by_cases h : bertIsNoop lc sa = true
  · rw [if_pos h]
    exact ⟨List.length_range _, fun o ho => List.mem_range.mp ho⟩
  · rw [if_neg h]
    obtain ⟨hlen, hmem⟩ := bertLoop_spec lc sa dec mn low t 0
    exact ⟨hlen, fun o ho => by simpa using hmem o ho⟩

/-- C10: the `Bert` normalizer built with `lowercase = false` and
`strip_accents = false` is a no-op: `normalize` takes the `is_noop`
fast path and returns the input unchanged together with the identity
byte-offset mapping. -/
theorem bert_noop_fast_path (dec : Nat → List Nat) (mn : Nat → Bool)
    (low : Nat → List Nat) (t : List Nat) :
    bertNormalize false false dec mn low t =
      (t, List.range (strLen t)) := by
  rw [bertNormalize]
  simp [bertIsNoop]

/-! ## Unicode normalizer (part of C7) -/

theorem pairs_flatMap_length (ps : List (Nat × Nat)) :
    (ps.flatMap fun p => List.replicate (utf8Len p.1) p.2).length =
      strLen (ps.map Prod.fst) := by
  induction ps with
  | nil => rfl
  | cons p ps ih =>
      rw [List.flatMap_cons, List.length_append, List.length_replicate, ih,
        List.map_cons, strLen_cons]

theorem pairs_flatMap_mem (ps : List (Nat × Nat)) :
    ∀ o ∈ ps.flatMap fun p => List.replicate (utf8Len p.1) p.2,
      ∃ p ∈ ps, o = p.2 := by
  intro o ho
  rcases List.mem_flatMap.mp ho with ⟨p, hp, hrep⟩
  exact ⟨p, hp, (List.mem_replicate.mp hrep).2⟩

theorem ucPush_inv (B : Nat) (st : List (Nat × Nat)) (ch off : Nat)
    (hst : ∀ p ∈ st, p.2 < B) (hoff : off < B) :
    ∀ p ∈ ucPush st ch off, p.2 < B := by
  intro p hp
  rcases List.mem_cons.mp hp with hp | hp
  · rw [hp]
    exact hoff
  · exact hst p hp

theorem ucPushCompose_inv (B : Nat) (comp : Nat → Nat → Option Nat)
    (st : List (Nat × Nat)) (ch off : Nat)
    (hst : ∀ p ∈ st, p.2 < B) (hoff : off < B) :
    ∀ p ∈ ucPushCompose comp st ch off, p.2 < B := by
  cases st with
  | nil =>
      intro p hp
      rw [ucPushCompose] at hp
      rcases List.mem_singleton.mp hp with hp
      rw [hp]
      exact hoff
  | cons q rest =>
      rcases q with ⟨pch, poff⟩
      intro p hp
      rw [ucPushCompose] at hp
      rcases hq : comp pch ch with _ | c
      · simp only [hq] at hp
        rcases List.mem_cons.mp hp with hp | hp
        · rw [hp]
          exact hoff
        · exact hst p hp
      · simp only [hq] at hp
        rcases List.mem_cons.mp hp with hp | hp
        · rw [hp]
          exact hst (pch, poff) (List.mem_cons_self _ rest)
        · exact hst p (List.mem_cons_of_mem _ hp)

theorem foldl_preserve {α σ : Type} (P : σ → Prop) (step : σ → α → σ)
    (hstep : ∀ s a, P s → P (step s a)) :
    ∀ (l : List α) (s : σ), P s → P (l.foldl step s) := by
  intro l
  induction l with
  | nil => intro s hs; exact hs
  | cons a l ih => intro s hs; exact ih (step s a) (hstep s a hs)

theorem unicodeLoop_inv (form : UnicodeForm)
    (comp : Nat → Nat → Option Nat) (decC decK : Nat → List Nat)
    (B : Nat) :
    ∀ (cs : List Nat) (off : Nat) (st : List (Nat × Nat)),
      (∀ p ∈ st, p.2 < B) → off + strLen cs ≤ B →
      ∀ p ∈ unicodeLoop form comp decC decK off cs st, p.2 < B := by
  intro cs
  induction cs with
  | nil =>
      intro off st hst _ p hp
      simp only [unicodeLoop] at hp
      exact hst p hp
  | cons c cs ih =>
      intro off st hst hbound p hp
      have hoff : off < B := by
        have h1 := utf8Len_pos c
        rw [strLen_cons] at hbound
        omega
      simp only [unicodeLoop] at hp
      have hst' : ∀ q ∈ (match form with
          | UnicodeForm.nfc => ucPushCompose comp st c off
          | UnicodeForm.nfd => (decC c).foldl (fun s d => ucPush s d off) st
          | UnicodeForm.nfkc =>
              (decK c).foldl (fun s d => ucPushCompose comp s d off) st
          | UnicodeForm.nfkd =>
              (decK c).foldl (fun s d => ucPush s d off) st), q.2 < B := by
        cases form with
        | nfc => exact ucPushCompose_inv B comp st c off hst hoff
        | nfd =>
            exact foldl_preserve (fun s => ∀ q ∈ s, q.2 < B)
              (fun s d => ucPush s d off)
              (fun s d hs => ucPush_inv B s d off hs hoff) (decC c) st hst
        | nfkc =>
            exact foldl_preserve (fun s => ∀ q ∈ s, q.2 < B)
              (fun s d => ucPushCompose comp s d off)
              (fun s d hs => ucPushCompose_inv B comp s d off hs hoff)
              (decK c) st hst
        | nfkd =>
            exact foldl_preserve (fun s => ∀ q ∈ s, q.2 < B)
              (fun s d => ucPush s d off)
              (fun s d hs => ucPush_inv B s d off hs hoff) (decK c) st hst
      refine ih (off + utf8Len c) _ hst' ?_ p hp
      rw [strLen_cons] at hbound
      omega

theorem unicodeNormalize_spec (form : UnicodeForm)
    (comp : Nat → Nat → Option Nat) (decC decK : Nat → List Nat)
    (t : List Nat) :
    (unicodeNormalize form comp decC decK t).2.length =
      strLen (unicodeNormalize form comp decC decK t).1
    ∧ ∀ o ∈ (unicodeNormalize form comp decC decK t).2, o < strLen t := by
  constructor
  · exact pairs_flatMap_length _
  · intro o ho
    rcases pairs_flatMap_mem _ o ho with ⟨p, hp, hop⟩
    rw [hop]
    refine unicodeLoop_inv form comp decC decK (strLen t) t 0 []
      (by intro q hq; exact absurd hq (List.not_mem_nil q))
      (by omega) p ?_
    exact List.mem_reverse.mp hp

/-! ## Replace normalizer (part of C7) -/

theorem replaceLoop_spec (text content : List Nat) :
    ∀ (ms : List (Nat × Nat)) (last : Nat), last ≤ text.length →
      matchesValid text.length last ms = true →
      (replaceLoop text content last ms).2.length =
        (replaceLoop text content last ms).1.length
      ∧ ∀ o ∈ (replaceLoop text content last ms).2, o ≤ text.length := by
  intro ms
  induction ms with
  | nil =>
      intro last hlast _
      constructor
      · rw [replaceLoop, List.length_range', List.length_drop]
      · intro o ho
        rw [replaceLoop] at ho
        have := List.mem_range'_1.mp ho
        omega
  | cons m ms ih =>
      intro last hlast hv
      rcases m with ⟨s, e⟩
      rw [matchesValid] at hv
      simp only [Bool.and_eq_true, decide_eq_true_eq] at hv
      obtain ⟨⟨⟨hls, hse⟩, hel⟩, hms⟩ := hv
      obtain ⟨ihlen, ihmem⟩ := ih e (by omega) hms
      constructor
      · rw [replaceLoop]
        simp only [List.length_append, List.length_range',
          List.length_replicate, List.length_take, List.length_drop]
        rw [ihlen]
        omega
      · intro o ho
        rw [replaceLoop] at ho
        simp only [List.mem_append] at ho
        rcases ho with (ho | ho) | ho
        · have := List.mem_range'_1.mp ho
          omega
        · have := (List.mem_replicate.mp ho).2
          omega
        · exact ihmem o ho

/-! ## Sequence normalizer (C9, part of C7) -/

theorem omapM_length (f : Nat → Option Nat) :
    ∀ l out : List Nat, omapM f l = some out → out.length = l.length := by
  intro l
  induction l with
  | nil =>
      intro out h
      rw [omapM] at h
      cases h
      rfl
  | cons a as ih =>
      intro out h
      rw [omapM] at h
      rcases hfa : f a with _ | b <;> rw [hfa] at h
      · exact absurd h (by simp)
      · rcases hrec : omapM f as with _ | bs <;> rw [hrec] at h
        · exact absurd h (by simp)
        · cases h
          simp [ih bs hrec]

theorem omapM_get?_mem (big : List Nat) :
    ∀ l out : List Nat, omapM (fun j => big.get? j) l = some out →
      ∀ x ∈ out, x ∈ big := by
  intro l
  induction l with
  | nil =>
      intro out h x hx
      rw [omapM] at h
      cases h
      exact absurd hx (List.not_mem_nil x)
  | cons a as ih =>
      intro out h x hx
      rw [omapM] at h
      rcases hfa : big.get? a with _ | b <;> rw [hfa] at h
      · exact absurd h (by simp)
      · rcases hrec : omapM (fun j => big.get? j) as with _ | bs <;>
          rw [hrec] at h
        · exact absurd h (by simp)
        · cases h
          rcases List.mem_cons.mp hx with hx | hx
          · rw [hx]
            exact List.get?_mem hfa
          · exact ih bs hrec x hx

theorem omapM_get?_fun (f : Nat → Option Nat) :
    ∀ l out : List Nat, omapM f l = some out →
      ∀ j, out.get? j = (l.get? j).bind f := by
  intro l
  induction l with
  | nil =>
      intro out h j
      rw [omapM] at h
      cases h
      rfl
  | cons a as ih =>
      intro out h j
      rw [omapM] at h
      rcases hfa : f a with _ | b <;> rw [hfa] at h
      · exact absurd h (by simp)
      · rcases hrec : omapM f as with _ | bs <;> rw [hrec] at h
        · exact absurd h (by simp)
        · cases h
          cases j with
          | zero => simp [hfa]
          | succ j => simpa using ih bs hrec j

theorem omapM_congr (f g : Nat → Option Nat) (hfg : ∀ a, f a = g a) :
    ∀ l : List Nat, omapM f l = omapM g l := by
  intro l
  induction l with
  | nil => rfl
  | cons a as ih => rw [omapM, omapM, hfg a, ih]

theorem omapM_bind_split (f g : Nat → Option Nat) :
    ∀ l out : List Nat, omapM (fun j => (f j).bind g) l = some out →
      ∃ mid, omapM f l = some mid ∧ omapM g mid = some out := by
  intro l
  induction l with
  | nil =>
      intro out h
      rw [omapM] at h
      cases h
      exact ⟨[], rfl, rfl⟩
  | cons a as ih =>
      intro out h
      rw [omapM] at h
      rcases hfg : (f a).bind g with _ | b <;> rw [hfg] at h
      · exact absurd h (by simp)
      · rcases hrec : omapM (fun j => (f j).bind g) as with _ | bs <;>
          rw [hrec] at h
        · exact absurd h (by simp)
        · cases h
          obtain ⟨v, hfa, hgv⟩ := Option.bind_eq_some.mp hfg
          obtain ⟨mid, hmid1, hmid2⟩ := ih bs hrec
          refine ⟨v :: mid, ?_, ?_⟩
          · rw [omapM, hfa, hmid1]
          · rw [omapM, hgv, hmid2]

theorem omapM_snoc (f : Nat → Option Nat) :
    ∀ (l : List Nat) (a : Nat),
      omapM f (l ++ [a]) =
        match omapM f l, f a with
        | some r, some b => some (r ++ [b])
        | _, _ => none := by
  intro l
  induction l with
  | nil =>
      intro a
      simp only [List.nil_append, omapM]
      rcases f a with _ | b <;> rfl
  | cons x xs ih =>
      intro a
      rw [List.cons_append, omapM, omapM, ih a]
      rcases f x with _ | b <;> rcases omapM f xs with _ | r <;>
        rcases f a with _ | c <;> rfl

theorem omapM_range_take (l : List Nat) :
    ∀ k : Nat, k ≤ l.length →
      omapM (fun j => l.get? j) (List.range k) = some (l.take k) := by
  intro k
  induction k with
  | zero => intro _; rfl
  | succ k ih =>
      intro hk
      rw [List.range_succ, omapM_snoc, ih (by omega)]
      have hk' : k < l.length := by omega
      rw [List.get?_eq_get hk']
      show some (l.take k ++ [l.get ⟨k, hk'⟩]) = some (l.take (k + 1))
      rw [List.take_succ, List.getElem?_eq_getElem hk']
      rfl

theorem omapM_range_get?_eq (n : Nat) :
    ∀ l out : List Nat,
      omapM (fun j => (List.range n).get? j) l = some out →
      out = l ∧ ∀ x ∈ l, x < n := by
  intro l
  induction l with
  | nil =>
      intro out h
      rw [omapM] at h
      cases h
      exact ⟨rfl, by intro x hx; exact absurd hx (List.not_mem_nil x)⟩
  | cons a as ih =>
      intro out h
      rw [omapM] at h
      rcases hfa : (List.range n).get? a with _ | b <;> rw [hfa] at h
      · exact absurd h (by simp)
      · have han : a < n := by
          by_contra hge
          rw [List.get?_eq_none.mpr (by rw [List.length_range]; omega)]
            at hfa
          exact absurd hfa (by simp)
        have hba : b = a := by
          rw [List.get?_range han] at hfa
          exact (Option.some.injEq _ _).mp hfa.symm
        rcases hrec : omapM (fun j => (List.range n).get? j) as with _ | bs
          <;> rw [hrec] at h
        · exact absurd h (by simp)
        · cases h
          obtain ⟨hbs, hlt⟩ := ih bs hrec
          subst hba
          subst hbs
          refine ⟨rfl, ?_⟩
          intro x hx
          rcases List.mem_cons.mp hx with hx | hx
          · rw [hx]; exact han
          · exact hlt x hx

theorem stepsLenOk_tail {n : NormStep} {ns : List NormStep}
    (h : stepsLenOk (n :: ns)) : stepsLenOk ns := by
  intro m hm
  exact h m (List.mem_cons_of_mem n hm)

theorem composedNormalize_len :
    ∀ (ns : List NormStep), stepsLenOk ns →
      ∀ t t2 o2, composedNormalize ns t = some (t2, o2) →
        o2.length = t2.length := by
  intro ns
  induction ns with
  | nil =>
      intro _ t t2 o2 h
      rw [composedNormalize] at h
      cases h
      exact List.length_range t.length
  | cons n ns ih =>
      intro hok t t2 o2 h
      rw [composedNormalize] at h
      rcases hn : n t with _ | p
      · rw [hn] at h
        exact Option.noConfusion h
      · rcases p with ⟨t1, o1⟩
        simp only [hn] at h
        rcases hcomp : composedNormalize ns t1 with _ | q
        · rw [hcomp] at h
          exact Option.noConfusion h
        · rcases q with ⟨t2', o2'⟩
          simp only [hcomp] at h
          rcases hmid : omapM (fun j => o1.get? j) o2' with _ | mid
          · rw [hmid] at h
            exact Option.noConfusion h
          · simp only [hmid] at h
            cases h
            rw [omapM_length _ _ _ hmid]
            exact ih (stepsLenOk_tail hok) t1 t2 o2' hcomp

theorem seqLoop_spec :
    ∀ (ns : List NormStep), stepsLenOk ns →
      ∀ cur off : List Nat, off.length = cur.length →
        ∀ nt fo, seqLoop ns (cur, off) = some (nt, fo) →
          ∃ o2, composedNormalize ns cur = some (nt, o2) ∧
            omapM (fun j => off.get? j) o2 = some fo := by
  intro ns
  induction ns with
  | nil =>
      intro _ cur off hlen nt fo hrun
      rw [seqLoop] at hrun
      cases hrun
      refine ⟨List.range cur.length, rfl, ?_⟩
      rw [← hlen, omapM_range_take off off.length (Nat.le_refl _),
        List.take_length]
  | cons n ns ih =>
      intro hok cur off hlen nt fo hrun
      rw [seqLoop] at hrun
      rcases hn : n cur with _ | p
      · rw [hn] at hrun
        exact Option.noConfusion hrun
      · rcases p with ⟨t1, o1⟩
        simp only [hn] at hrun
        rcases hc : omapM (fun j => off.get? j) o1 with _ | c1
        · rw [hc] at hrun
          exact Option.noConfusion hrun
        · simp only [hc] at hrun
          have hlen1 : o1.length = t1.length :=
            hok n (List.mem_cons_self n ns) cur t1 o1 hn
          have hc1len : c1.length = t1.length := by
            rw [omapM_length _ _ _ hc]
            exact hlen1
          obtain ⟨o2, hcomp, hfo⟩ :=
            ih (stepsLenOk_tail hok) t1 c1 hc1len nt fo hrun
          have hpt : ∀ j, c1.get? j =
              (o1.get? j).bind (fun i => off.get? i) :=
            omapM_get?_fun _ _ _ hc
          rw [omapM_congr _ _ hpt o2] at hfo
          obtain ⟨mid, hmid1, hmid2⟩ :=
            omapM_bind_split (fun j => o1.get? j) (fun i => off.get? i)
              o2 fo hfo
          refine ⟨mid, ?_, hmid2⟩
          rw [composedNormalize]
          simp only [hn, hcomp, hmid1]

/-- C7 (amended): for every normalizer, the offset mapping has exactly
one entry per byte of the normalized text, and every offset is at most
the byte length of the original text; for `Bert` and `Unicode`, and for
any `Sequence` run that returns, every offset is moreover a strictly
valid byte index into the original text.  (`Replace` can emit the
offset `len(text)` — not a valid index — for replacement-content bytes
of an empty regex match at the end of the input; see the
counterexample.) -/
theorem normalizer_offset_mapping :
    (∀ (lc sa : Bool) (dec : Nat → List Nat) (mn : Nat → Bool)
        (low : Nat → List Nat) (t : List Nat),
        (bertNormalize lc sa dec mn low t).2.length =
          strLen (bertNormalize lc sa dec mn low t).1
        ∧ ∀ o ∈ (bertNormalize lc sa dec mn low t).2, o < strLen t)
    ∧ (∀ (form : UnicodeForm) (comp : Nat → Nat → Option Nat)
        (decC decK : Nat → List Nat) (t : List Nat),
        (unicodeNormalize form comp decC decK t).2.length =
          strLen (unicodeNormalize form comp decC decK t).1
        ∧ ∀ o ∈ (unicodeNormalize form comp decC decK t).2, o < strLen t)
    ∧ (∀ (text content : List Nat) (ms : List (Nat × Nat)),
        matchesValid text.length 0 ms = true →
        (replaceNormalize text content ms).2.length =
          (replaceNormalize text content ms).1.length
        ∧ ∀ o ∈ (replaceNormalize text content ms).2, o ≤ text.length)
    ∧ (∀ (ns : List NormStep) (t nt fo : List Nat), stepsLenOk ns →
        sequenceNormalize ns t = some (nt, fo) →
        fo.length = nt.length ∧ ∀ o ∈ fo, o < t.length) := by
  refine ⟨?_, ?_, ?_, ?_⟩
  · intro lc sa dec mn low t
    exact bertNormalize_spec lc sa dec mn low t
  · intro form comp decC decK t
    exact unicodeNormalize_spec form comp decC decK t
  · intro text content ms hv
    exact replaceLoop_spec text content ms 0 (Nat.zero_le _) hv
  · intro ns t nt fo hok hrun
    rw [sequenceNormalize] at hrun
    obtain ⟨o2, hcomp, hfo⟩ :=
      seqLoop_spec ns hok t (List.range t.length)
        (List.length_range t.length) nt fo hrun
    obtain ⟨hfe, hlt⟩ := omapM_range_get?_eq t.length o2 fo hfo
    subst hfe
    exact ⟨composedNormalize_len ns hok t nt fo hcomp, hlt⟩

/-- Counterexample for C7 as stated: `Replace` with a pattern matching
the empty string at the end of the input (for example `"$"` or `""`),
here on the empty text with the one-byte replacement `"b"`.  The match
list `[(0, 0)]` is well formed, normalization succeeds with nonempty
output `"b"`, yet its single offset 0 is not a valid byte index into
the empty original text. -/
theorem replace_offset_out_of_range :
    matchesValid 0 0 [(0, 0)] = true
    ∧ replaceNormalize [] [98] [(0, 0)] = ([98], [0])
    ∧ ¬(0 < ([] : List Nat).length) := by
  decide

/-- Witness for C7 at the `Replace` conjunct, with the two-byte text
`[10, 20]`, one-byte content, and an empty match at end of text. -/
theorem normalizer_offset_mapping_witness :
    (replaceNormalize [10, 20] [32] [(1, 1)]).2.length =
      (replaceNormalize [10, 20] [32] [(1, 1)]).1.length
    ∧ ∀ o ∈ (replaceNormalize [10, 20] [32] [(1, 1)]).2,
        o ≤ ([10, 20] : List Nat).length :=
  normalizer_offset_mapping.2.2.1 [10, 20] [32] [(1, 1)] (by decide)

/-- C9 (amended): for every list of normalizer steps that keep one
offset per output byte and every input on which `Sequence::normalize`
returns (in particular, on which every per-step offset stays a valid
index into its step input, which an end-of-text `Replace` insertion
violates), the result is the relational composition of the per-step
mappings applied to the iterated text, every returned offset is a byte
position in the original input, and the empty sequence returns the
input unchanged with the identity mapping. -/
theorem sequence_relational_composition (ns : List NormStep)
    (t nt fo : List Nat) (hok : stepsLenOk ns)
    (hrun : sequenceNormalize ns t = some (nt, fo)) :
    composedNormalize ns t = some (nt, fo)
    ∧ (∀ o ∈ fo, o < t.length)
    ∧ sequenceNormalize [] t = some (t, List.range t.length) := by
  rw [sequenceNormalize] at hrun
  obtain ⟨o2, hcomp, hfo⟩ :=
    seqLoop_spec ns hok t (List.range t.length)
      (List.length_range t.length) nt fo hrun
  obtain ⟨hfe, hlt⟩ := omapM_range_get?_eq t.length o2 fo hfo
  subst hfe
  exact ⟨hcomp, hlt, rfl⟩

/-- Counterexample for C9 as stated: a `Sequence` holding one `Replace`
step whose pattern matches the empty string at end of input.  The step
itself succeeds on the text `"a"`, the composed result exists, but
`Sequence::normalize` does not return it — the offset-remapping loop
indexes `offsets[1]` into a length-1 mapping, a panic, modelled as
`none`. -/
theorem sequence_panics_on_end_match :
    (replaceEndStep [98] [97]).isSome = true
    ∧ sequenceNormalize [replaceEndStep [98]] [97] = none
    ∧ composedNormalize [replaceEndStep [98]] [97] =
        some ([97, 98], [0, 1]) := by
  decide

/-- Witness for C9 with the single identity step on the text
`[7, 8]`. -/
theorem sequence_relational_composition_witness :
    composedNormalize [idStep] [7, 8] = some ([7, 8], [0, 1])
    ∧ (∀ o ∈ ([0, 1] : List Nat), o < ([7, 8] : List Nat).length)
    ∧ sequenceNormalize [] [7, 8] =
        some ([7, 8], List.range ([7, 8] : List Nat).length) :=
  sequence_relational_composition [idStep] [7, 8] [7, 8] [0, 1]
    (by
      intro n hn u v o h
      have he := List.mem_singleton.mp hn
      subst he
      simp only [idStep, Option.some.injEq, Prod.mk.injEq] at h
      obtain ⟨h1, h2⟩ := h
      rw [← h2, List.length_range, h1])
    (by decide)

end Rten
